import Mathlib

/-!
Shallow embedding of the structure-resolution engine of `epub2md`
(`src/epub2md/__init__.py`).  Text is modelled as `List Char`; Python's
`None`-able strings as `Option (List Char)`; the filesystem as a record of
pure oracles.  Machine integers do not overflow in this program (indices
into in-memory strings), so `Nat` is used directly.
-/

namespace Epub2md

/-- Python `text.find(pat)`: index of the first occurrence of `pat` in
`text`, `none` when absent (Python returns `-1`). -/
def strFind (text pat : List Char) : Option Nat :=
  if pat.isPrefixOf text then some 0
  else
    match text with
    | [] => none
    | _ :: rest => (strFind rest pat).map (· + 1)

/-- Python `text.rfind("<", 0, pos)`: the largest index `i < pos` with
`text[i] = '<'`, `none` when there is none (Python returns `-1`). -/
def rfindLt (text : List Char) : Nat → Option Nat
  | 0 => none
  | p + 1 => if text.getD p ' ' = '<' then some p else rfindLt text p

/-- Python `min` over a nonempty list of found positions (`none` on `[]`). -/
def minPos : List Nat → Option Nat
  | [] => none
  | x :: xs =>
    match minPos xs with
    | none => some x
    | some m => some (min x m)

/-- Python `sub in s` substring containment. -/
def containsSub (s sub : List Char) : Bool :=
  (strFind s sub).isSome

/-- `pathlib` `/` join, modelled as string concatenation with a slash. -/
def joinPath (dir f : List Char) : List Char :=
  dir ++ '/' :: f

/-- Truthiness of an optional Python string: `None` and `""` are falsy. -/
def truthyS : Option (List Char) → Bool
  | none => false
  | some s => !s.isEmpty

/-- The four literal attribute patterns `_find_anchor` searches for:
`id="a"`, `id='a'`, `name="a"`, `name='a'`. -/
def pats (anchor : List Char) : List (List Char) :=
  [ ('i' :: 'd' :: '=' :: '"' :: anchor) ++ ['"'],
    ('i' :: 'd' :: '=' :: '\'' :: anchor) ++ ['\''],
    ('n' :: 'a' :: 'm' :: 'e' :: '=' :: '"' :: anchor) ++ ['"'],
    ('n' :: 'a' :: 'm' :: 'e' :: '=' :: '\'' :: anchor) ++ ['\''] ]

/-- `_find_anchor(text, anchor)`: the lowest match position among the four
attribute patterns, walked backward to the nearest preceding `<`. -/
def find_anchor (text : List Char) (anchor : Option (List Char)) : Option Nat :=
  match anchor with
  | none => none
  | some a =>
    if a.isEmpty then none
    else
      match minPos ((pats a).filterMap (fun p => strFind text p)) with
      | none => none
      | some pos =>
        match rfindLt text pos with
        | none => some pos
        | some l => some l

/-- Python slice `text[s:e]`. -/
def pySlice (text : List Char) (s e : Nat) : List Char :=
  (text.drop s).take (e - s)

/-- `_extract_segment(text, start_id, end_id)`.  Note the Python truthiness
test `(e := _find_anchor(text, end_id)) and e > start`: a resolved end
offset of `0` is falsy, which coincides with `e > start` failing on `Nat`. -/
def extract_segment (text : List Char) (sid eid : Option (List Char)) :
    Option (List Char) :=
  if !(truthyS sid || truthyS eid) then none
  else
    match (if truthyS sid then find_anchor text sid else some 0) with
    | none => none
    | some start =>
      let endp :=
        if truthyS eid then
          match find_anchor text eid with
          | some e => if e ≠ 0 ∧ start < e then e else text.length
          | none => text.length
        else text.length
      if start < endp then some (pySlice text start endp) else none

/-- Case-insensitive prefix test (models `re.IGNORECASE` literal parts). -/
def ciPrefixOf : List Char → List Char → Bool
  | [], _ => true
  | _ :: _, [] => false
  | p :: ps, t :: ts => p.toLower == t.toLower && ciPrefixOf ps ts

/-- Case-insensitive first-occurrence search. -/
def strFindCi (text pat : List Char) : Option Nat :=
  if ciPrefixOf pat text then some 0
  else
    match text with
    | [] => none
    | _ :: rest => (strFindCi rest pat).map (· + 1)

/-- Skip to just after the first `'>'`, `none` if there is none
(the `[^>]*>` part of the heading regex). -/
def afterGt : List Char → Option (List Char)
  | [] => none
  | c :: rest => if c = '>' then some rest else afterGt rest

/-- Attempt to match `<tag[^>]*>(.*?)</tag>` (DOTALL, IGNORECASE) at the
start of `text`, returning the non-greedy inner group. -/
def tryHeadingAt (tag text : List Char) : Option (List Char) :=
  if ciPrefixOf ('<' :: tag) text then
    match afterGt (text.drop (tag.length + 1)) with
    | none => none
    | some rest =>
      match strFindCi rest (('<' :: '/' :: tag) ++ ['>']) with
      | none => none
      | some j => some (rest.take j)
  else none

/-- `re.search` for the heading pattern: leftmost position where the full
pattern matches. -/
def searchHeading (tag : List Char) : List Char → Option (List Char)
  | [] => none
  | text@(_ :: rest) =>
    match tryHeadingAt tag text with
    | some inner => some inner
    | none => searchHeading tag rest

/-- Fuel-structured worker for `stripTags`; the fuel dominates the list
length at every call, so the `0, _ :: _` case is unreachable and the
recursion is kernel-reducible. -/
def stripTagsAux : Nat → List Char → List Char
  | _, [] => []
  | 0, l => l
  | fuel + 1, c :: rest =>
    if c = '<' then
      match rest.findIdx? (· = '>') with
      | some j =>
        if 1 ≤ j then stripTagsAux fuel (rest.drop (j + 1))
        else c :: stripTagsAux fuel rest
      | none => c :: stripTagsAux fuel rest
    else c :: stripTagsAux fuel rest

/-- `re.sub(r"<[^>]+>", "", s)`: remove non-overlapping `<...>` runs, left
to right (at least one non-`'>'` character between the brackets). -/
def stripTags (s : List Char) : List Char :=
  stripTagsAux s.length s

/-- Python `str.strip()` whitespace set. -/
def pyIsSpace (c : Char) : Bool :=
  c = ' ' || c = '\t' || c = '\n' || c = '\r' || c = Char.ofNat 11 || c = Char.ofNat 12

/-- Python `str.strip()`. -/
def trimWs (s : List Char) : List Char :=
  ((s.dropWhile pyIsSpace).reverse.dropWhile pyIsSpace).reverse

/-- The tag-priority loop of `_extract_title`: for each of `h1`, `h2`, `h3`
in order, take the first regex match; return its stripped inner text when
non-empty, else fall through to the next tag. -/
def titleFromTags : List (List Char) → List Char → Option (List Char)
  | [], _ => none
  | t :: ts, text =>
    match searchHeading t text with
    | some inner =>
      let s := trimWs (stripTags inner)
      if s.isEmpty then titleFromTags ts text else some s
    | none => titleFromTags ts text

/-- `_extract_title`, with the file read modelled as `Option` raw text
(`none` = `OSError` on `read_text`). -/
def extract_title (txt : Option (List Char)) : Option (List Char) :=
  txt.bind (titleFromTags ["h1".toList, "h2".toList, "h3".toList])

/-- Last path component (`pathlib` `name`). -/
def pathName (src : List Char) : List Char :=
  ((src.reverse.takeWhile (· ≠ '/')).reverse)

/-- `pathlib` `Path(src).stem`: the name, minus its suffix when the last
dot sits strictly inside the name. -/
def stemOf (src : List Char) : List Char :=
  let nm := pathName src
  match nm.reverse.findIdx? (· = '.') with
  | none => nm
  | some jr =>
    let i := nm.length - 1 - jr
    if 0 < i ∧ i < nm.length - 1 then nm.take i else nm

/-- Spine-chapter title: `_extract_title(hp) or Path(src).stem`. -/
def spineTitle (txt : Option (List Char)) (src : List Char) : List Char :=
  (extract_title txt).getD (stemOf src)

/-- Hex digit test for percent-decoding. -/
def isHexDigit (c : Char) : Bool :=
  ('0' ≤ c && c ≤ '9') || ('a' ≤ c && c ≤ 'f') || ('A' ≤ c && c ≤ 'F')

/-- Hex digit value. -/
def hexVal (c : Char) : Nat :=
  if '0' ≤ c && c ≤ '9' then c.toNat - '0'.toNat
  else if 'a' ≤ c && c ≤ 'f' then c.toNat - 'a'.toNat + 10
  else c.toNat - 'A'.toNat + 10

/-- ASCII model of `urllib.parse.unquote`: decode `%hh` pairs, leave
malformed escapes untouched (multi-byte UTF-8 sequences are out of scope of
the claims and of the archives modelled here). -/
def unquote : List Char → List Char
  | [] => []
  | '%' :: a :: b :: rest =>
    if isHexDigit a && isHexDigit b then
      Char.ofNat (16 * hexVal a + hexVal b) :: unquote rest
    else '%' :: unquote (a :: b :: rest)
  | c :: rest => c :: unquote rest

/-- A pattern occurrence predicate: some of the four anchor patterns for
`a` matches `text` at offset `i`. -/
def anchorMatchAt (text a : List Char) (i : Nat) : Prop :=
  ∃ p ∈ pats a, p.isPrefixOf (text.drop i) = true

instance (text a : List Char) (i : Nat) : Decidable (anchorMatchAt text a i) :=
  inferInstanceAs (Decidable (∃ p ∈ pats a, _ = true))

/-- An XML element: (possibly namespace-qualified) tag, attribute
dictionary, and child elements, as exposed by `ElementTree`. -/
inductive Xml where
  | elem (tag : List Char) (attrs : List (List Char × List Char))
         (children : List Xml)

/-- Element tag. -/
def Xml.tag : Xml → List Char
  | .elem t _ _ => t

/-- Element attribute dictionary. -/
def Xml.attrs : Xml → List (List Char × List Char)
  | .elem _ a _ => a

/-- Element children. -/
def Xml.children : Xml → List Xml
  | .elem _ _ c => c

/-- `el.attrib.get(k)`: attribute lookup (XML forbids duplicate attribute
names, so first-match lookup is the dictionary). -/
def attrGet (attrs : List (List Char × List Char)) (k : List Char) :
    Option (List Char) :=
  (attrs.find? (fun kv => kv.1 = k)).map (·.2)

/-- `element.find(".//tag")`: first descendant with the given qualified
tag, in document order. -/
def findDescList (t : List Char) : List Xml → Option Xml
  | [] => none
  | .elem tg ats ch :: rest =>
    if tg = t then some (.elem tg ats ch)
    else
      match findDescList t ch with
      | some r => some r
      | none => findDescList t rest

/-- `_ln(tag)`: local name, the part after the first `}` if any. -/
def ln (tag : List Char) : List Char :=
  match tag.findIdx? (· = '}') with
  | some j => tag.drop (j + 1)
  | none => tag

/-- The pure-oracle view of the unpacked archive: `xml p` is the parse
result of `_parse_xml(p)` (`none` = file absent or `ET.ParseError`, both
caught there), `fileExists` is `Path.exists`, `read p` is
`read_text(errors="ignore")` (`none` = `OSError`). -/
structure FS where
  xml : List Char → Option Xml
  fileExists : List Char → Bool
  read : List Char → Option (List Char)

/-- Qualified tag of the container `rootfile` element. -/
def rootfileTag : List Char :=
  "{urn:oasis:names:tc:opendocument:xmlns:container}rootfile".toList

/-- Path of the container registration file under `root`. -/
def containerPath (root : List Char) : List Char :=
  joinPath (joinPath root "META-INF".toList) "container.xml".toList

/-- The `full-path` attribute key of the `rootfile` element. -/
def fullPathKey : List Char := "full-path".toList

/-- `_find_opf(root)`: resolve the package-descriptor path from
`META-INF/container.xml`, `none` on any failure. -/
def find_opf (fs : FS) (root : List Char) : Option (List Char) :=
  match fs.xml (containerPath root) with
  | none => none
  | some tree =>
    match findDescList rootfileTag tree.children with
    | none => none
    | some rf =>
      match attrGet rf.attrs fullPathKey with
      | none => none
      | some fp =>
        if fp.isEmpty then none
        else
          let opf := joinPath root fp
          if fs.fileExists opf then some opf else none

/-- The `itemref` tag, the `idref`/`href`/`media-type` attribute keys and
the `"html"` media-type probe of `_find_spine`. -/
def itemrefTag : List Char := "itemref".toList

/-- The `idref` attribute key. -/
def idrefKey : List Char := "idref".toList

/-- The `href` attribute key. -/
def hrefKey : List Char := "href".toList

/-- The `media-type` attribute key. -/
def mediaTypeKey : List Char := "media-type".toList

/-- The `"html"` substring probed in media types. -/
def htmlStr : List Char := "html".toList

/-- The itemref loop of `_find_spine`, given the already-built manifest
dictionary (as a lookup) and the spine element's children. -/
def find_spine_items (manifest : List Char → Option Xml) :
    List Xml → List (List Char)
  | [] => []
  | ref :: rest =>
    if ln ref.tag ≠ itemrefTag then find_spine_items manifest rest
    else
      match manifest ((attrGet ref.attrs idrefKey).getD []) with
      | none => find_spine_items manifest rest
      | some it =>
        let href := (attrGet it.attrs hrefKey).getD []
        let mt := (attrGet it.attrs mediaTypeKey).getD []
        if !href.isEmpty && containsSub mt htmlStr then
          unquote href :: find_spine_items manifest rest
        else find_spine_items manifest rest

/-- The claim-side view of one spine reference: `some` of the unquoted
`href` when the reference is an `itemref` whose `idref` resolves to a
manifest item with non-empty `href` and a media type containing `"html"`,
else `none`. -/
def spineEntry (manifest : List Char → Option Xml) (ref : Xml) :
    Option (List Char) :=
  if ln ref.tag = itemrefTag then
    (manifest ((attrGet ref.attrs idrefKey).getD [])).bind (fun it =>
      if !((attrGet it.attrs hrefKey).getD []).isEmpty &&
          containsSub ((attrGet it.attrs mediaTypeKey).getD []) htmlStr then
        some (unquote ((attrGet it.attrs hrefKey).getD []))
      else none)
  else none

/-- The claim-side characterization of the spine reading order: exactly
the qualifying `itemref` children, in declared order, mapped to their
unquoted `href`s. -/
def spineSpec (manifest : List Char → Option Xml) (refs : List Xml) :
    List (List Char) :=
  refs.filterMap (spineEntry manifest)

/-- A `(title, file, fragment)` entry produced by `_parse_nav`/`_parse_ncx`
(`frag` is `frag or None`, hence never the empty string in practice). -/
structure TocItem where
  title : List Char
  src : List Char
  frag : Option (List Char)
deriving DecidableEq

/-- The chapter dictionary built in `main`. -/
structure Chapter where
  order : Nat
  title : List Char
  src : List Char
  fragment : Option (List Char)
  html_path : List Char
  start_id : Option (List Char)
  end_id : Option (List Char)
deriving DecidableEq

/-- `src.endswith((".xhtml", ".html", ".htm"))`. -/
def endsWithHtml (s : List Char) : Bool :=
  ".xhtml".toList.isSuffixOf s || ".html".toList.isSuffixOf s ||
    ".htm".toList.isSuffixOf s

/-- The TOC chapter-construction loop of `main` (`enumerate(items, 1)`):
drop entries with a non-HTML extension, then entries whose joined target
does not exist; surviving entries keep their enumeration index as order. -/
def buildTocChapters (ex : List Char → Bool) (bdir : List Char) :
    Nat → List TocItem → List Chapter
  | _, [] => []
  | i, it :: rest =>
    let src := unquote it.src
    if !endsWithHtml src then buildTocChapters ex bdir (i + 1) rest
    else
      let hp := joinPath bdir src
      if !ex hp then buildTocChapters ex bdir (i + 1) rest
      else ⟨i, it.title, src, it.frag, hp, none, none⟩ ::
        buildTocChapters ex bdir (i + 1) rest

/-- The spine fallback chapter loop of `main`: drop missing files, title
via `_extract_title(hp) or Path(src).stem`. -/
def buildSpineChapters (fs : FS) (bdir : List Char) :
    Nat → List (List Char) → List Chapter
  | _, [] => []
  | i, src :: rest =>
    let hp := joinPath bdir src
    if fs.fileExists hp then
      ⟨i, spineTitle (fs.read hp) src, src, none, hp, none, none⟩ ::
        buildSpineChapters fs bdir (i + 1) rest
    else buildSpineChapters fs bdir (i + 1) rest

/-- `{(spine_dir / sf).resolve() for sf in spine_files if exists}`,
modelled as a deduplicated list (`.resolve()` taken as canonical). -/
def spineResolvedSet (fs : FS) (sdir : List Char)
    (files : List (List Char)) : List (List Char) :=
  (files.filterMap (fun sf =>
    let p := joinPath sdir sf
    if fs.fileExists p then some p else none)).dedup

/-- `{ch["html_path"].resolve() for ch in chapters}` as a dedup list. -/
def tocFileSet (chs : List Chapter) : List (List Char) :=
  (chs.map (·.html_path)).dedup

/-- The coverage test `spine_resolved and len(toc_files) <
len(spine_resolved) * 0.5` (the float arithmetic is exact here, so `ℚ`
models it). -/
def coverageFallback (tocFiles spineResolved : List (List Char)) : Bool :=
  !spineResolved.isEmpty &&
    decide ((tocFiles.length : ℚ) < (spineResolved.length : ℚ) * (1 / 2))

/-- Outcome of the chapter-selection part of `main`: one of the two
`sys.exit` calls, or the chapter list handed to conversion. -/
inductive RunResult where
  | fatalNoTocSpine
  | fatalNoChapters
  | ok (chapters : List Chapter)
deriving DecidableEq

/-- The `if use_spine:` block of `main`, including its
`Error: no toc or spine found` exit and the trailing
`Error: no html chapters found` exit. -/
def spineFallback (fs : FS) (spineDir : Option (List Char))
    (spineFiles : List (List Char)) : RunResult :=
  match spineDir with
  | none => .fatalNoTocSpine
  | some sdir =>
    if spineFiles.isEmpty then .fatalNoTocSpine
    else
      let chs := buildSpineChapters fs sdir 1 spineFiles
      if chs.isEmpty then .fatalNoChapters else .ok chs

/-- Chapter-source selection of `main` (lines 157-188): build TOC
chapters, apply the coverage heuristic, fall back to the spine, and take
the two fatal exits exactly where the code does.  The coverage branch
reads `spine_dir` unconditionally; `_find_spine` only ever pairs a `None`
directory with an empty file list, so the `getD []` default is dead under
that invariant (the guard requires a non-empty file list). -/
def selectChapters (fs : FS) (tocBase : Option (List Char))
    (items : List TocItem) (spineDir : Option (List Char))
    (spineFiles : List (List Char)) : RunResult :=
  match tocBase with
  | none => spineFallback fs spineDir spineFiles
  | some bdir =>
    if items.isEmpty then spineFallback fs spineDir spineFiles
    else
      let chs := buildTocChapters fs.fileExists bdir 1 items
      let useSpine :=
        if !chs.isEmpty && !spineFiles.isEmpty then
          coverageFallback (tocFileSet chs)
            (spineResolvedSet fs (spineDir.getD []) spineFiles)
        else false
      if useSpine then spineFallback fs spineDir spineFiles
      else if chs.isEmpty then .fatalNoChapters else .ok chs

/-- The chapter list the spine branch would commit to (`[]` where the
code exits with `no toc or spine found`). -/
def spineCommitted (fs : FS) (spineDir : Option (List Char))
    (spineFiles : List (List Char)) : List Chapter :=
  match spineDir with
  | none => []
  | some sdir =>
    if spineFiles.isEmpty then []
    else buildSpineChapters fs sdir 1 spineFiles

/-- The chapter list of whichever source `selectChapters` commits to
(`[]` where the code exits before building one). -/
def committedChapters (fs : FS) (tocBase : Option (List Char))
    (items : List TocItem) (spineDir : Option (List Char))
    (spineFiles : List (List Char)) : List Chapter :=
  match tocBase with
  | none => spineCommitted fs spineDir spineFiles
  | some bdir =>
    if items.isEmpty then spineCommitted fs spineDir spineFiles
    else
      let chs := buildTocChapters fs.fileExists bdir 1 items
      let useSpine :=
        if !chs.isEmpty && !spineFiles.isEmpty then
          coverageFallback (tocFileSet chs)
            (spineResolvedSet fs (spineDir.getD []) spineFiles)
        else false
      if useSpine then spineCommitted fs spineDir spineFiles else chs

/-- Whether a run outcome is one of the two fatal `sys.exit` calls. -/
def isFatal : RunResult → Bool
  | .ok _ => false
  | _ => true

/-- Sort key of `group.sort(key=lambda c: c["order"])`. -/
def chLe (a b : Chapter) : Prop := a.order ≤ b.order

instance : DecidableRel chLe := fun a b =>
  inferInstanceAs (Decidable (a.order ≤ b.order))

instance : IsTotal Chapter chLe := ⟨fun a b => Nat.le_total a.order b.order⟩

instance : IsTrans Chapter chLe := ⟨fun _ _ _ h1 h2 => Nat.le_trans h1 h2⟩

/-- `next((l["fragment"] for l in rest if l["fragment"]), None)`. -/
def nextFrag : List Chapter → Option (List Char)
  | [] => none
  | c :: rest => if truthyS c.fragment then c.fragment else nextFrag rest

/-- The per-chapter assignment loop of the fragment-range resolver; the
`Bool` flag tracks `i == 0`. -/
def assignRanges : Bool → List Chapter → List Chapter
  | _, [] => []
  | isFirst, c :: rest =>
    let e := nextFrag rest
    let c' :=
      if truthyS c.fragment then
        { c with start_id := c.fragment, end_id := e }
      else if isFirst && truthyS e then { c with end_id := e }
      else c
    c' :: assignRanges false rest

/-- One `by_file` group pass of `main` (lines 193-199): stable sort by
order, skip fragment-free groups, otherwise assign start/end anchors. -/
def resolveGroup (g : List Chapter) : List Chapter :=
  let s := List.insertionSort chLe g
  if s.all (fun c => !truthyS c.fragment) then s
  else assignRanges true s

/-- The dense output numbering of the conversion loop (`n += 1` per
emitted chapter), paired with its chapter. -/
def numberChapters (chs : List Chapter) : List (Nat × Chapter) :=
  (List.range' 1 chs.length).zip chs

/-! ### Lemmas about the primitive string searches -/

theorem isPrefixOf_nil_iff {pat : List Char} :
    pat.isPrefixOf ([] : List Char) = true ↔ pat = [] := by
  cases pat <;> simp [List.isPrefixOf]

theorem strFind_spec {pat : List Char} :
    ∀ (text : List Char) {i : Nat}, strFind text pat = some i →
      pat.isPrefixOf (text.drop i) = true ∧
        ∀ j, j < i → ¬pat.isPrefixOf (text.drop j) = true := by
  intro text
  induction text with
  | nil =>
    intro i h
    unfold strFind at h
    split at h
    · rename_i hp
      injection h with h0
      subst h0
      exact ⟨by simpa using hp, fun j hj => absurd hj (by omega)⟩
    · exact absurd h (by simp)
  | cons c rest ih =>
    intro i h
    unfold strFind at h
    split at h
    · rename_i hp
      injection h with h0
      subst h0
      exact ⟨by simpa using hp, fun j hj => absurd hj (by omega)⟩
    · rename_i hp
      obtain ⟨i', hi', rfl⟩ := Option.map_eq_some'.mp h
      obtain ⟨h1, h2⟩ := ih hi'
      refine ⟨by simpa using h1, ?_⟩
      intro j hj
      cases j with
      | zero => simpa using hp
      | succ j' =>
        have := h2 j' (by omega)
        simpa using this

theorem strFind_exists {pat : List Char} :
    ∀ (text : List Char) (i : Nat), pat.isPrefixOf (text.drop i) = true →
      ∃ m, strFind text pat = some m ∧ m ≤ i := by
  intro text
  induction text with
  | nil =>
    intro i h
    rw [List.drop_nil] at h
    exact ⟨0, by simp [strFind, h], Nat.zero_le _⟩
  | cons c rest ih =>
    intro i h
    by_cases hp : pat.isPrefixOf (c :: rest) = true
    · exact ⟨0, by simp [strFind, hp], Nat.zero_le _⟩
    · cases i with
      | zero => rw [List.drop_zero] at h; exact absurd h hp
      | succ i' =>
        rw [List.drop_succ_cons] at h
        obtain ⟨m, hm, hle⟩ := ih i' h
        refine ⟨m + 1, ?_, by omega⟩
        unfold strFind
        simp [hp, hm]

theorem minPos_eq_none : ∀ {l : List Nat}, minPos l = none → l = [] := by
  intro l h
  cases l with
  | nil => rfl
  | cons x xs =>
    unfold minPos at h
    cases hxs : minPos xs <;> simp [hxs] at h

theorem minPos_spec : ∀ (l : List Nat) (m : Nat), minPos l = some m →
    m ∈ l ∧ ∀ x ∈ l, m ≤ x := by
  intro l
  induction l with
  | nil => intro m h; simp [minPos] at h
  | cons x xs ih =>
    intro m h
    unfold minPos at h
    cases hxs : minPos xs with
    | none =>
      rw [hxs] at h
      injection h with h0
      subst h0
      have hnil := minPos_eq_none hxs
      subst hnil
      exact ⟨List.mem_cons_self _ _, by simp⟩
    | some m' =>
      rw [hxs] at h
      injection h with h0
      subst h0
      obtain ⟨hmem, hall⟩ := ih m' hxs
      constructor
      · rw [Nat.min_def]
        split
        · exact List.mem_cons_self _ _
        · exact List.mem_cons_of_mem _ hmem
      · intro y hy
        rcases List.mem_cons.mp hy with rfl | hy'
        · exact Nat.min_le_left _ _
        · exact le_trans (Nat.min_le_right _ _) (hall y hy')

theorem minPos_ne_none : ∀ (l : List Nat), l ≠ [] → ∃ m, minPos l = some m := by
  intro l h
  cases hm : minPos l with
  | none => exact absurd (minPos_eq_none hm) h
  | some m => exact ⟨m, rfl⟩

theorem rfindLt_lt {text : List Char} : ∀ {pos l : Nat},
    rfindLt text pos = some l → l < pos := by
  intro pos
  induction pos with
  | zero => intro l h; simp [rfindLt] at h
  | succ p ih =>
    intro l h
    unfold rfindLt at h
    split at h
    · injection h with h0; omega
    · exact lt_trans (ih h) (by omega)

theorem rfindLt_eq_some {text : List Char} :
    ∀ (pos l : Nat), l < pos → text.getD l ' ' = '<' →
      (∀ j, l < j → j < pos → ¬text.getD j ' ' = '<') →
      rfindLt text pos = some l := by
  intro pos
  induction pos with
  | zero => intro l hl; omega
  | succ p ih =>
    intro l hl hc hno
    unfold rfindLt
    by_cases hp : text.getD p ' ' = '<'
    · rw [if_pos hp]
      rcases Nat.lt_succ_iff_lt_or_eq.mp hl with hlt | rfl
      · exact absurd hp (hno p hlt (by omega))
      · rfl
    · rw [if_neg hp]
      have hl' : l < p := by
        rcases Nat.lt_succ_iff_lt_or_eq.mp hl with hlt | rfl
        · exact hlt
        · exact absurd hc hp
      exact ih l hl' hc (fun j h1 h2 => hno j h1 (by omega))

theorem pats_ne_nil {a : List Char} : ∀ p ∈ pats a, p ≠ [] := by
  intro p hp
  simp only [pats, List.mem_cons, List.not_mem_nil, or_false] at hp
  rcases hp with rfl | rfl | rfl | rfl <;> simp

theorem mem_positions_lt_length {text a : List Char} {pos : Nat}
    (h : pos ∈ (pats a).filterMap (fun p => strFind text p)) :
    pos < text.length := by
  obtain ⟨p, hp, hfind⟩ := List.mem_filterMap.mp h
  have h1 := (strFind_spec text hfind).1
  by_contra hge
  rw [List.drop_eq_nil_of_le (by omega)] at h1
  exact pats_ne_nil p hp (isPrefixOf_nil_iff.mp h1)

theorem find_anchor_eq_of (text a : List Char) (ha : a ≠ []) (pa la : Nat)
    (h1 : anchorMatchAt text a pa) (h2 : ∀ j, j < pa → ¬anchorMatchAt text a j)
    (h3 : la < pa) (h4 : text.getD la ' ' = '<')
    (h5 : ∀ j, la < j → j < pa → ¬text.getD j ' ' = '<') :
    find_anchor text (some a) = some la := by
  have hmem : pa ∈ (pats a).filterMap (fun p => strFind text p) := by
    obtain ⟨p, hp, hpref⟩ := h1
    obtain ⟨m, hm, hle⟩ := strFind_exists text pa hpref
    have hmn : m = pa := by
      rcases Nat.lt_or_ge m pa with hlt | hge
      · exact absurd ⟨p, hp, (strFind_spec text hm).1⟩ (h2 m hlt)
      · omega
    subst hmn
    exact List.mem_filterMap.mpr ⟨p, hp, hm⟩
  have hlb : ∀ x ∈ (pats a).filterMap (fun p => strFind text p), pa ≤ x := by
    intro x hx
    obtain ⟨p, hp, hfind⟩ := List.mem_filterMap.mp hx
    by_contra hxlt
    exact h2 x (by omega) ⟨p, hp, (strFind_spec text hfind).1⟩
  obtain ⟨m, hmp⟩ := minPos_ne_none _ (List.ne_nil_of_mem hmem)
  obtain ⟨hmm, hml⟩ := minPos_spec _ m hmp
  have hmpa : m = pa := le_antisymm (hml pa hmem) (hlb m hmm)
  subst hmpa
  have hae : a.isEmpty = false := by
    cases a
    · exact absurd rfl ha
    · rfl
  simp only [find_anchor, hae, Bool.false_eq_true, if_false, hmp,
    rfindLt_eq_some _ la h3 h4 h5]

theorem find_anchor_lt_length {text a : List Char} {s : Nat}
    (h : find_anchor text (some a) = some s) : s < text.length := by
  simp only [find_anchor] at h
  split at h
  · exact absurd h (by simp)
  · split at h
    · exact absurd h (by simp)
    · rename_i pos hpos
      have hpl : pos < text.length := mem_positions_lt_length (minPos_spec _ pos hpos).1
      split at h
      · injection h with h0; omega
      · rename_i l hr
        injection h with h0
        subst h0
        exact lt_trans (rfindLt_lt hr) hpl

theorem find_anchor_some_shape {text : List Char} {x : Option (List Char)}
    {s : Nat} (h : find_anchor text x = some s) :
    ∃ a, x = some a ∧ a.isEmpty = false := by
  cases x with
  | none => exact absurd h (by simp [find_anchor])
  | some a =>
    refine ⟨a, rfl, ?_⟩
    cases ha : a.isEmpty
    · rfl
    · rw [find_anchor, ha] at h; exact absurd h (by simp)

theorem pySlice_to_end (text : List Char) (s : Nat) :
    pySlice text s text.length = text.drop s := by
  unfold pySlice
  rw [← List.length_drop]
  exact List.take_length _

theorem extract_segment_eq_of {text : List Char} {sid eid : Option (List Char)}
    {sa se : Nat} (hs : find_anchor text sid = some sa)
    (he : find_anchor text eid = some se) :
    extract_segment text sid eid =
      if se ≠ 0 ∧ sa < se then some (pySlice text sa se)
      else some (text.drop sa) := by
  obtain ⟨a, rfl, hae⟩ := find_anchor_some_shape hs
  obtain ⟨b, rfl, hbe⟩ := find_anchor_some_shape he
  have hta : truthyS (some a) = true := by simp [truthyS, hae]
  have htb : truthyS (some b) = true := by simp [truthyS, hbe]
  have hsl : sa < text.length := find_anchor_lt_length hs
  unfold extract_segment
  simp only [hta, htb, Bool.or_self, Bool.not_true, Bool.false_eq_true,
    if_false, if_true, hs, he]
  by_cases hc : se ≠ 0 ∧ sa < se
  · rw [if_pos hc, if_pos hc, if_pos hc.2]
  · rw [if_neg hc, if_neg hc, if_pos hsl, pySlice_to_end]

/-- C3 counterexample: in
`X<p id="b">Y</p><p id="a">Z</p>` the anchors `a` and `b` both resolve
(to offsets 16 and 1), the resolved start is ≥ the resolved end, yet
`_extract_segment` returns the non-empty tail `<p id="a">Z</p>` running to
the end of the text — not an empty result. -/
theorem c3_counterexample :
    find_anchor ("X<p id=\"b\">Y</p><p id=\"a\">Z</p>".toList)
        (some ['a']) = some 16 ∧
    find_anchor ("X<p id=\"b\">Y</p><p id=\"a\">Z</p>".toList)
        (some ['b']) = some 1 ∧
    (1 : Nat) ≤ 16 ∧
    extract_segment ("X<p id=\"b\">Y</p><p id=\"a\">Z</p>".toList)
        (some ['a']) (some ['b']) = some ("<p id=\"a\">Z</p>".toList) ∧
    ("<p id=\"a\">Z</p>".toList ≠ ([] : List Char)) := by
  decide

/-- C3 (amended): when both anchors resolve, the returned range is
`[start_offset, end_offset)` only when the resolved start is strictly
below the resolved end; when resolved start ≥ resolved end the end anchor
is ignored and the segment runs from the start offset to the end of the
text (it is not empty). -/
theorem c3_amended (text : List Char) (sid eid : Option (List Char))
    (sa se : Nat) (hs : find_anchor text sid = some sa)
    (he : find_anchor text eid = some se) :
    (sa < se → extract_segment text sid eid = some (pySlice text sa se)) ∧
    (se ≤ sa → extract_segment text sid eid = some (text.drop sa)) := by
  rw [extract_segment_eq_of hs he]
  constructor
  · intro h
    rw [if_pos ⟨by omega, h⟩]
  · intro h
    rw [if_neg (by omega)]

/-- C3 (amended) witness: the amended statement instantiated on the
counterexample text, with both hypotheses discharged by evaluation. -/
theorem c3_amended_witness :
    extract_segment ("X<p id=\"b\">Y</p><p id=\"a\">Z</p>".toList)
        (some ['a']) (some ['b']) =
      some (("X<p id=\"b\">Y</p><p id=\"a\">Z</p>".toList).drop 16) :=
  (c3_amended ("X<p id=\"b\">Y</p><p id=\"a\">Z</p>".toList)
    (some ['a']) (some ['b']) 16 1 (by decide) (by decide)).2 (by omega)

/-- C4: for a text in which the lowest match of the four anchor patterns
for `a` sits at `pa`, whose tag-opening `<` is at `la` (the nearest `<`
before `pa`), and likewise `pb`/`lb` for `b`, with `a`'s tag opening
before `b`'s, extraction with start anchor `a` and end anchor `b` returns
exactly the slice that begins at `a`'s opening `<` and ends strictly
before `b`'s opening `<`. -/
theorem c4_segment_roundtrip (text a b : List Char) (pa pb la lb : Nat)
    (ha : a ≠ []) (hb : b ≠ [])
    (h1 : anchorMatchAt text a pa)
    (h2 : ∀ j, j < pa → ¬anchorMatchAt text a j)
    (h3 : la < pa) (h4 : text.getD la ' ' = '<')
    (h5 : ∀ j, j < pa → la < j → ¬text.getD j ' ' = '<')
    (h6 : anchorMatchAt text b pb)
    (h7 : ∀ j, j < pb → ¬anchorMatchAt text b j)
    (h8 : lb < pb) (h9 : text.getD lb ' ' = '<')
    (h10 : ∀ j, j < pb → lb < j → ¬text.getD j ' ' = '<')
    (hord : la < lb) :
    extract_segment text (some a) (some b) = some (pySlice text la lb) := by
  have hfa : find_anchor text (some a) = some la :=
    find_anchor_eq_of text a ha pa la h1 h2 h3 h4
      (fun j hj1 hj2 => h5 j hj2 hj1)
  have hfb : find_anchor text (some b) = some lb :=
    find_anchor_eq_of text b hb pb lb h6 h7 h8 h9
      (fun j hj1 hj2 => h10 j hj2 hj1)
  rw [extract_segment_eq_of hfa hfb, if_pos ⟨by omega, hord⟩]

/-- C4 witness: on `<p id="a">X</p><p id="b">Y</p>` the extraction
returns `<p id="a">X</p>`, the substring from `a`'s opening tag up to but
excluding `b`'s opening tag. -/
theorem c4_segment_roundtrip_witness :
    extract_segment ("<p id=\"a\">X</p><p id=\"b\">Y</p>".toList)
        (some ['a']) (some ['b']) = some ("<p id=\"a\">X</p>".toList) := by
  have h := c4_segment_roundtrip ("<p id=\"a\">X</p><p id=\"b\">Y</p>".toList)
    ['a'] ['b'] 3 18 0 15 (by decide) (by decide) (by decide) (by decide)
    (by decide) (by decide) (by decide) (by decide) (by decide) (by decide)
    (by decide) (by decide) (by decide)
  exact h.trans (by decide)

/-- C2: with S = number of distinct resolved existing spine paths (S > 0)
and T = number of distinct resolved existing files referenced by the TOC
chapters, the coverage reconciler falls back to the spine iff
`T < 0.5 * S`, i.e. iff `2 * T < S`; the boundary `2 * T = S` does not
trigger the fallback. -/
theorem c2_coverage (fs : FS) (chs : List Chapter) (sdir : List Char)
    (files : List (List Char))
    (hS : spineResolvedSet fs sdir files ≠ []) :
    (coverageFallback (tocFileSet chs) (spineResolvedSet fs sdir files) =
        true ↔
      2 * (tocFileSet chs).length < (spineResolvedSet fs sdir files).length) ∧
    (2 * (tocFileSet chs).length = (spineResolvedSet fs sdir files).length →
      coverageFallback (tocFileSet chs) (spineResolvedSet fs sdir files) =
        false) := by
  have hne : (spineResolvedSet fs sdir files).isEmpty = false := by
    cases h : spineResolvedSet fs sdir files
    · exact absurd h hS
    · rfl
  have key : coverageFallback (tocFileSet chs) (spineResolvedSet fs sdir files)
      = true ↔
      2 * (tocFileSet chs).length < (spineResolvedSet fs sdir files).length := by
    unfold coverageFallback
    rw [hne]
    simp only [Bool.not_false, Bool.true_and, decide_eq_true_eq]
    rw [mul_one_div, lt_div_iff₀ (by norm_num : (0 : ℚ) < 2)]
    constructor
    · intro h
      rw [mul_comm] at h
      exact_mod_cast h
    · intro h
      rw [mul_comm]
      exact_mod_cast h
  refine ⟨key, fun heq => ?_⟩
  cases hcv : coverageFallback (tocFileSet chs) (spineResolvedSet fs sdir files)
  · rfl
  · exact absurd (key.mp hcv) (by omega)

/-- C2 witness: one TOC file against two distinct existing spine files is
exactly the boundary `2 * T = S`, and it does not trigger the fallback. -/
theorem c2_coverage_witness :
    2 * (tocFileSet [⟨1, [], [], none, "d/a.html".toList, none, none⟩]).length =
      (spineResolvedSet
        ⟨fun _ => none, fun _ => true, fun _ => none⟩ ("d".toList)
        ["a.html".toList, "b.html".toList]).length ∧
    coverageFallback
        (tocFileSet [⟨1, [], [], none, "d/a.html".toList, none, none⟩])
        (spineResolvedSet
          ⟨fun _ => none, fun _ => true, fun _ => none⟩ ("d".toList)
          ["a.html".toList, "b.html".toList]) = false := by
  refine ⟨by decide, ?_⟩
  exact (c2_coverage ⟨fun _ => none, fun _ => true, fun _ => none⟩
    [⟨1, [], [], none, "d/a.html".toList, none, none⟩] ("d".toList)
    ["a.html".toList, "b.html".toList] (by decide)).2 (by decide)

/-- C7: the container locator reports "not found" (`none`) exactly when
there is no chain of: a parsed registration document, a `rootfile`
descendant, a non-empty `full-path` attribute, and an existing referenced
descriptor path.  In particular it returns `none` whenever the
registration file is absent or unparseable (both collapse to
`fs.xml = none`, as `_parse_xml` catches the exceptions), lacks a
root-file pointer, or the referenced path does not exist; being a total
pure function, it never raises and has no side effects. -/
theorem c7_find_opf (fs : FS) (root : List Char) :
    find_opf fs root = none ↔
      ¬∃ tree rf fp, fs.xml (containerPath root) = some tree ∧
        findDescList rootfileTag tree.children = some rf ∧
        attrGet rf.attrs fullPathKey = some fp ∧ fp ≠ [] ∧
        fs.fileExists (joinPath root fp) = true := by
  unfold find_opf
  cases hx : fs.xml (containerPath root) with
  | none => simp [hx]
  | some tree =>
    cases hf : findDescList rootfileTag tree.children with
    | none => simp [hx, hf]
    | some rf =>
      cases hat : attrGet rf.attrs fullPathKey with
      | none => simp [hx, hf, hat]
      | some fp =>
        by_cases hfp : fp = []
        · subst hfp
          simp [hx, hf, hat]
        · by_cases hex : fs.fileExists (joinPath root fp) = true
          · simp [hx, hf, hat, hfp, hex]
          · simp [hx, hf, hat, hfp, hex]

/-- C10: the spine-derived reading order is exactly the spine's `itemref`
children, in declared order, whose `idref` resolves to a manifest item
with a non-empty `href` and a media-type containing `"html"`, each mapped
to its unquoted `href` — so items of any other media type appear neither
in the fallback chapters nor in the coverage denominator (both are
computed from this list). -/
theorem c10_spine_reading_order (manifest : List Char → Option Xml)
    (refs : List Xml) :
    find_spine_items manifest refs = spineSpec manifest refs := by
  induction refs with
  | nil => rfl
  | cons r rest ih =>
    unfold spineSpec at ih ⊢
    rw [List.filterMap_cons]
    unfold find_spine_items
    by_cases htag : ln r.tag = itemrefTag
    · rw [if_neg (not_not_intro htag)]
      have hse : spineEntry manifest r =
          (manifest ((attrGet r.attrs idrefKey).getD [])).bind
            (fun it =>
              if !((attrGet it.attrs hrefKey).getD []).isEmpty &&
                  containsSub ((attrGet it.attrs mediaTypeKey).getD [])
                    htmlStr then
                some (unquote ((attrGet it.attrs hrefKey).getD []))
              else none) := by
        unfold spineEntry
        rw [if_pos htag]
      rw [hse]
      cases hm : manifest ((attrGet r.attrs idrefKey).getD []) with
      | none => exact ih
      | some it =>
        by_cases hc : ¬((attrGet it.attrs hrefKey).getD []) = [] ∧
            containsSub ((attrGet it.attrs mediaTypeKey).getD []) htmlStr = true
        · simp [hc, ih]
        · simp [hc, ih]
    · have hse : spineEntry manifest r = none := by
        unfold spineEntry
        rw [if_neg htag]
      rw [if_pos htag, hse]
      exact ih

/-- The dependence of `buildTocChapters` on the existence oracle is
confined to joined paths of entries that already passed the extension
filter. -/
theorem buildTocChapters_congr (bdir : List Char) :
    ∀ (i : Nat) (items : List TocItem) (ex₁ ex₂ : List Char → Bool),
      (∀ it ∈ items, endsWithHtml (unquote it.src) = true →
        ex₁ (joinPath bdir (unquote it.src)) =
          ex₂ (joinPath bdir (unquote it.src))) →
      buildTocChapters ex₁ bdir i items = buildTocChapters ex₂ bdir i items := by
  intro i items
  induction items generalizing i with
  | nil => intro _ _ _; rfl
  | cons it rest ih =>
    intro ex₁ ex₂ hagree
    unfold buildTocChapters
    have htail := ih (i + 1) ex₁ ex₂
      (fun x hx h => hagree x (List.mem_cons_of_mem _ hx) h)
    by_cases hw : endsWithHtml (unquote it.src) = true
    · have hex := hagree it (List.mem_cons_self _ _) hw
      simp only [hw, hex, htail, Bool.not_true, Bool.false_eq_true, if_false]
    · have hw' : endsWithHtml (unquote it.src) = false := by
        cases h : endsWithHtml (unquote it.src)
        · rfl
        · exact absurd h hw
      simp only [hw', Bool.not_false, if_true]
      exact htail

/-- Every chapter the TOC loop builds carries an `.xhtml`/`.html`/`.htm`
target. -/
theorem buildTocChapters_html (ex : List Char → Bool) (bdir : List Char) :
    ∀ (i : Nat) (items : List TocItem) (ch : Chapter),
      ch ∈ buildTocChapters ex bdir i items → endsWithHtml ch.src = true := by
  intro i items
  induction items generalizing i with
  | nil => intro ch h; simp [buildTocChapters] at h
  | cons it rest ih =>
    intro ch h
    unfold buildTocChapters at h
    by_cases hw : endsWithHtml (unquote it.src) = true
    · by_cases he : ex (joinPath bdir (unquote it.src)) = true
      · simp only [hw, he, Bool.not_true, Bool.false_eq_true, if_false,
          List.mem_cons] at h
        rcases h with rfl | h
        · exact hw
        · exact ih (i + 1) ch h
      · have he' : ex (joinPath bdir (unquote it.src)) = false := by
          cases hv : ex (joinPath bdir (unquote it.src))
          · rfl
          · exact absurd hv he
        simp only [hw, he', Bool.not_true, Bool.not_false, Bool.false_eq_true,
          if_false, if_true] at h
        exact ih (i + 1) ch h
    · have hw' : endsWithHtml (unquote it.src) = false := by
        cases hv : endsWithHtml (unquote it.src)
        · rfl
        · exact absurd hv hw
      simp only [hw', Bool.not_false, if_true] at h
      exact ih (i + 1) ch h

/-- C9: a TOC entry whose (unquoted) target path does not end in
`.xhtml`, `.html` or `.htm` is silently dropped by the chapter loop —
before the existence check (the built list does not depend on what the
oracle says about such paths) and hence before the coverage computation
(which only sees the built chapters). -/
theorem c9_non_html_dropped (ex ex₂ : List Char → Bool) (bdir : List Char)
    (i : Nat) (items : List TocItem)
    (hagree : ∀ it ∈ items, endsWithHtml (unquote it.src) = true →
      ex (joinPath bdir (unquote it.src)) = ex₂ (joinPath bdir (unquote it.src))) :
    (∀ ch ∈ buildTocChapters ex bdir i items, endsWithHtml ch.src = true) ∧
      buildTocChapters ex bdir i items = buildTocChapters ex₂ bdir i items :=
  ⟨fun ch h => buildTocChapters_html ex bdir i items ch h,
    buildTocChapters_congr bdir i items ex ex₂ hagree⟩

/-- C9 witness: two oracles that disagree exactly on the non-HTML entry's
path build the same chapter list, and every built chapter has an HTML
extension. -/
theorem c9_non_html_dropped_witness :
    (∀ ch ∈ buildTocChapters (fun _ => true) ("d".toList) 1
        [⟨"t".toList, "a.txt".toList, none⟩,
         ⟨"u".toList, "b.html".toList, none⟩],
      endsWithHtml ch.src = true) ∧
    buildTocChapters (fun _ => true) ("d".toList) 1
        [⟨"t".toList, "a.txt".toList, none⟩,
         ⟨"u".toList, "b.html".toList, none⟩] =
      buildTocChapters (fun p => decide (p ≠ "d/a.txt".toList)) ("d".toList) 1
        [⟨"t".toList, "a.txt".toList, none⟩,
         ⟨"u".toList, "b.html".toList, none⟩] :=
  c9_non_html_dropped (fun _ => true) (fun p => decide (p ≠ "d/a.txt".toList))
    ("d".toList) 1
    [⟨"t".toList, "a.txt".toList, none⟩, ⟨"u".toList, "b.html".toList, none⟩]
    (by decide)

theorem isEmpty_true_iff {α : Type} (l : List α) :
    l.isEmpty = true ↔ l = [] := by
  cases l <;> simp

theorem isEmpty_false_iff {α : Type} (l : List α) :
    l.isEmpty = false ↔ l ≠ [] := by
  cases l <;> simp

theorem isFatal_spineFallback (fs : FS) (sd : Option (List Char))
    (sf : List (List Char)) :
    isFatal (spineFallback fs sd sf) = true ↔ spineCommitted fs sd sf = [] := by
  unfold spineFallback spineCommitted
  cases sd with
  | none => simp [isFatal]
  | some sdir =>
    cases hsf : sf.isEmpty with
    | true => simp [isFatal]
    | false =>
      cases hbs : (buildSpineChapters fs sdir 1 sf).isEmpty with
      | true => simp [isFatal, (isEmpty_true_iff _).mp hbs]
      | false => simp [isFatal, hbs, (isEmpty_false_iff _).mp hbs]

/-- C1 counterexample: the TOC yields one entry (with a non-HTML target,
so it is dropped) while the spine yields a usable chapter with an
existing target file — yet the run aborts with the fatal
`no html chapters found` exit, because the spine fallback is never taken
when the TOC produced entries. -/
theorem c1_counterexample :
    selectChapters
        ⟨fun _ => none, fun p => decide (p = "d/b.html".toList), fun _ => none⟩
        (some ("d".toList)) [⟨"t".toList, "a.txt".toList, none⟩]
        (some ("d".toList)) ["b.html".toList] = RunResult.fatalNoChapters ∧
    buildSpineChapters
        ⟨fun _ => none, fun p => decide (p = "d/b.html".toList), fun _ => none⟩
        ("d".toList) 1 ["b.html".toList] ≠ [] := by
  decide

/-- C1 (amended): the run terminates with a fatal user-reported error iff
the chapter source the code commits to yields no chapter with an existing
target file — the spine branch when the TOC is absent/empty or the
coverage fallback fires, and the TOC branch otherwise.  A usable spine
therefore does not prevent the abort when the TOC produced entries that
were all dropped. -/
theorem c1_amended (fs : FS) (tocBase : Option (List Char))
    (items : List TocItem) (spineDir : Option (List Char))
    (spineFiles : List (List Char)) :
    isFatal (selectChapters fs tocBase items spineDir spineFiles) = true ↔
      committedChapters fs tocBase items spineDir spineFiles = [] := by
  unfold selectChapters committedChapters
  cases tocBase with
  | none => exact isFatal_spineFallback fs spineDir spineFiles
  | some bdir =>
    cases hit : items.isEmpty with
    | true =>
      simp only [hit, if_true]
      exact isFatal_spineFallback fs spineDir spineFiles
    | false =>
      simp only [hit, Bool.false_eq_true, if_false]
      by_cases hus : (if (!(buildTocChapters fs.fileExists bdir 1
            items).isEmpty && !spineFiles.isEmpty) = true then
          coverageFallback (tocFileSet (buildTocChapters fs.fileExists bdir 1
            items)) (spineResolvedSet fs (spineDir.getD []) spineFiles)
        else false) = true
      · simp only [hus, if_true]
        exact isFatal_spineFallback fs spineDir spineFiles
      · have hus' : (if (!(buildTocChapters fs.fileExists bdir 1
              items).isEmpty && !spineFiles.isEmpty) = true then
            coverageFallback (tocFileSet (buildTocChapters fs.fileExists bdir 1
              items)) (spineResolvedSet fs (spineDir.getD []) spineFiles)
          else false) = false := by
          cases h : (if (!(buildTocChapters fs.fileExists bdir 1
                items).isEmpty && !spineFiles.isEmpty) = true then
              coverageFallback (tocFileSet (buildTocChapters fs.fileExists
                bdir 1 items)) (spineResolvedSet fs (spineDir.getD [])
                spineFiles)
            else false)
          · rfl
          · exact absurd h hus
        simp only [hus', Bool.false_eq_true, if_false]
        cases hce : (buildTocChapters fs.fileExists bdir 1 items).isEmpty with
        | true => simp [isFatal, (isEmpty_true_iff _).mp hce]
        | false => simp [isFatal, hce, (isEmpty_false_iff _).mp hce]

/-- Every chapter built by the TOC loop starting at index `i` has order
at least `i`. -/
theorem buildTocChapters_order_lb (ex : List Char → Bool) (bdir : List Char) :
    ∀ (i : Nat) (items : List TocItem) (ch : Chapter),
      ch ∈ buildTocChapters ex bdir i items → i ≤ ch.order := by
  intro i items
  induction items generalizing i with
  | nil => intro ch h; simp [buildTocChapters] at h
  | cons it rest ih =>
    intro ch h
    unfold buildTocChapters at h
    by_cases hw : endsWithHtml (unquote it.src) = true
    · by_cases he : ex (joinPath bdir (unquote it.src)) = true
      · simp only [hw, he, Bool.not_true, Bool.false_eq_true, if_false,
          List.mem_cons] at h
        rcases h with rfl | h
        · exact le_refl _
        · exact le_trans (by omega) (ih (i + 1) ch h)
      · have he' : ex (joinPath bdir (unquote it.src)) = false := by
          cases hv : ex (joinPath bdir (unquote it.src))
          · rfl
          · exact absurd hv he
        simp only [hw, he', Bool.not_true, Bool.not_false, Bool.false_eq_true,
          if_false, if_true] at h
        exact le_trans (by omega) (ih (i + 1) ch h)
    · have hw' : endsWithHtml (unquote it.src) = false := by
        cases hv : endsWithHtml (unquote it.src)
        · rfl
        · exact absurd hv hw
      simp only [hw', Bool.not_false, if_true] at h
      exact le_trans (by omega) (ih (i + 1) ch h)

/-- The TOC loop's order values are strictly increasing. -/
theorem buildTocChapters_chain (ex : List Char → Bool) (bdir : List Char) :
    ∀ (i : Nat) (items : List TocItem),
      List.Chain' (· < ·)
        ((buildTocChapters ex bdir i items).map Chapter.order) := by
  intro i items
  induction items generalizing i with
  | nil => simp [buildTocChapters]
  | cons it rest ih =>
    unfold buildTocChapters
    by_cases hw : endsWithHtml (unquote it.src) = true
    · by_cases he : ex (joinPath bdir (unquote it.src)) = true
      · simp only [hw, he, Bool.not_true, Bool.false_eq_true, if_false,
          List.map_cons]
        rw [List.chain'_cons']
        refine ⟨?_, ih (i + 1)⟩
        intro b hb
        cases hr : buildTocChapters ex bdir (i + 1) rest with
        | nil => rw [hr] at hb; simp at hb
        | cons c t =>
          rw [hr] at hb
          simp only [List.map_cons, List.head?_cons, Option.mem_def,
            Option.some.injEq] at hb
          subst hb
          have : i + 1 ≤ c.order :=
            buildTocChapters_order_lb ex bdir (i + 1) rest c
              (by rw [hr]; exact List.mem_cons_self _ _)
          omega
      · have he' : ex (joinPath bdir (unquote it.src)) = false := by
          cases hv : ex (joinPath bdir (unquote it.src))
          · rfl
          · exact absurd hv he
        simp only [hw, he', Bool.not_true, Bool.not_false, Bool.false_eq_true,
          if_false, if_true]
        exact ih (i + 1)
    · have hw' : endsWithHtml (unquote it.src) = false := by
        cases hv : endsWithHtml (unquote it.src)
        · rfl
        · exact absurd hv hw
      simp only [hw', Bool.not_false, if_true]
      exact ih (i + 1)

/-- Every chapter built by the spine loop starting at index `i` has order
at least `i`. -/
theorem buildSpineChapters_order_lb (fs : FS) (bdir : List Char) :
    ∀ (i : Nat) (files : List (List Char)) (ch : Chapter),
      ch ∈ buildSpineChapters fs bdir i files → i ≤ ch.order := by
  intro i files
  induction files generalizing i with
  | nil => intro ch h; simp [buildSpineChapters] at h
  | cons src rest ih =>
    intro ch h
    unfold buildSpineChapters at h
    by_cases he : fs.fileExists (joinPath bdir src) = true
    · simp only [he, if_true, List.mem_cons] at h
      rcases h with rfl | h
      · exact le_refl _
      · exact le_trans (by omega) (ih (i + 1) ch h)
    · have he' : fs.fileExists (joinPath bdir src) = false := by
        cases hv : fs.fileExists (joinPath bdir src)
        · rfl
        · exact absurd hv he
      simp only [he', Bool.false_eq_true, if_false] at h
      exact le_trans (by omega) (ih (i + 1) ch h)

/-- The spine loop's order values are strictly increasing. -/
theorem buildSpineChapters_chain (fs : FS) (bdir : List Char) :
    ∀ (i : Nat) (files : List (List Char)),
      List.Chain' (· < ·)
        ((buildSpineChapters fs bdir i files).map Chapter.order) := by
  intro i files
  induction files generalizing i with
  | nil => simp [buildSpineChapters]
  | cons src rest ih =>
    unfold buildSpineChapters
    by_cases he : fs.fileExists (joinPath bdir src) = true
    · simp only [he, if_true, List.map_cons]
      rw [List.chain'_cons']
      refine ⟨?_, ih (i + 1)⟩
      intro b hb
      cases hr : buildSpineChapters fs bdir (i + 1) rest with
      | nil => rw [hr] at hb; simp at hb
      | cons c t =>
        rw [hr] at hb
        simp only [List.map_cons, List.head?_cons, Option.mem_def,
          Option.some.injEq] at hb
        subst hb
        have : i + 1 ≤ c.order :=
          buildSpineChapters_order_lb fs bdir (i + 1) rest c
            (by rw [hr]; exact List.mem_cons_self _ _)
        omega
    · have he' : fs.fileExists (joinPath bdir src) = false := by
        cases hv : fs.fileExists (joinPath bdir src)
        · rfl
        · exact absurd hv he
      simp only [he', Bool.false_eq_true, if_false]
      exact ih (i + 1)

/-- C5 counterexample: a TOC whose first entry is dropped (non-HTML
target) and whose second survives produces the chapter order list `[2]`,
which is not the dense 1-based numbering `[1]`: order values keep their
pre-drop enumeration index, leaving gaps. -/
theorem c5_counterexample :
    (buildTocChapters (fun _ => true) ("d".toList) 1
        [⟨"t".toList, "a.txt".toList, none⟩,
         ⟨"u".toList, "b.html".toList, none⟩]).map Chapter.order = [2] ∧
    ([2] : List Nat) ≠ List.range' 1 1 := by
  decide

/-- C5 (amended): chapter order values in the built lists are strictly
increasing, but when candidate entries are dropped they keep their
pre-drop enumeration index and may leave gaps; the dense, contiguous
1-based numbering of the final output is produced by the separate output
counter of the conversion loop. -/
theorem c5_amended (ex : List Char → Bool) (fs : FS) (bdir : List Char)
    (items : List TocItem) (files : List (List Char)) (chs : List Chapter) :
    List.Chain' (· < ·)
        ((buildTocChapters ex bdir 1 items).map Chapter.order) ∧
    List.Chain' (· < ·)
        ((buildSpineChapters fs bdir 1 files).map Chapter.order) ∧
    (numberChapters chs).map Prod.fst = List.range' 1 chs.length := by
  refine ⟨buildTocChapters_chain ex bdir 1 items,
    buildSpineChapters_chain fs bdir 1 files, ?_⟩
  unfold numberChapters
  rw [List.map_fst_zip]
  rw [List.length_range']

/-- One heading level's contribution to the title: the first regex match
for `tag`, cleaned (markup stripped, trimmed), filtered to non-empty. -/
def headingTitle (tag text : List Char) : Option (List Char) :=
  (searchHeading tag text).bind (fun inner =>
    let s := trimWs (stripTags inner)
    if s.isEmpty then none else some s)

theorem opt_orElse_none (x : Option (List Char)) :
    x.orElse (fun _ => none) = x := by
  cases x <;> rfl

theorem titleFromTags_cons (t : List Char) (ts : List (List Char))
    (text : List Char) :
    titleFromTags (t :: ts) text =
      (headingTitle t text).orElse (fun _ => titleFromTags ts text) := by
  cases h : searchHeading t text with
  | none =>
    simp only [titleFromTags, headingTitle, h]
    rfl
  | some inner =>
    simp only [titleFromTags, headingTitle, h, Option.bind]
    by_cases he : (trimWs (stripTags inner)).isEmpty = true
    · simp only [he, if_true, ite_true]
      rfl
    · have he' : (trimWs (stripTags inner)).isEmpty = false := by
        cases hv : (trimWs (stripTags inner)).isEmpty
        · rfl
        · exact absurd hv he
      simp only [he', Bool.false_eq_true, if_false, ite_false]
      rfl

/-- C6 counterexample: in `<h2>B</h2><h1>A</h1>` the first level-1/2/3
heading element of the raw text is the `<h2>` at offset 0 (the `<h1>`
only starts at offset 10), and its stripped text is `B` — yet the title
inferred is `A`, because the code prefers any `h1` match over an earlier
`h2`. -/
theorem c6_counterexample :
    extract_title (some ("<h2>B</h2><h1>A</h1>".toList)) = some ['A'] ∧
    searchHeading ("h2".toList) ("<h2>B</h2><h1>A</h1>".toList) =
      some ['B'] ∧
    strFindCi ("<h2>B</h2><h1>A</h1>".toList) ("<h2".toList) = some 0 ∧
    strFindCi ("<h2>B</h2><h1>A</h1>".toList) ("<h1".toList) = some 10 ∧
    (['A'] : List Char) ≠ ['B'] := by
  decide

/-- C6 (amended): spine-derived titles are inferred by trying heading
levels in the priority order `h1`, `h2`, `h3` — for each level, the
earliest match in the raw text is taken and its markup-stripped trimmed
text used if non-empty, otherwise the next level is tried; if no level
yields text, or the file is unreadable, the title falls back to the
file's base name with its extension stripped.  The inference is a total
function (it never raises). -/
theorem c6_amended (txt : Option (List Char)) (src : List Char) :
    spineTitle txt src =
      match txt with
      | none => stemOf src
      | some text =>
        ((headingTitle ("h1".toList) text).orElse (fun _ =>
          (headingTitle ("h2".toList) text).orElse (fun _ =>
            headingTitle ("h3".toList) text))).getD (stemOf src) := by
  cases txt with
  | none => rfl
  | some text =>
    unfold spineTitle extract_title
    have hb : (some text).bind
        (titleFromTags ["h1".toList, "h2".toList, "h3".toList]) =
        titleFromTags ["h1".toList, "h2".toList, "h3".toList] text := rfl
    rw [hb, titleFromTags_cons, titleFromTags_cons, titleFromTags_cons]
    have hnil : titleFromTags ([] : List (List Char)) text = none := rfl
    rw [hnil, opt_orElse_none]

/-- Mapping to the fragment field commutes with range assignment. -/
theorem assignRanges_frag : ∀ (b : Bool) (l : List Chapter),
    (assignRanges b l).map Chapter.fragment = l.map Chapter.fragment := by
  intro b l
  induction l generalizing b with
  | nil => rfl
  | cons c rest ih =>
    unfold assignRanges
    simp only [List.map_cons, ih false]
    by_cases hf : truthyS c.fragment = true
    · simp only [hf, if_true]
    · have hf' : truthyS c.fragment = false := by
        cases hv : truthyS c.fragment
        · rfl
        · exact absurd hv hf
      by_cases hbe : (b && truthyS (nextFrag rest)) = true
      · simp only [hf', Bool.false_eq_true, if_false, hbe, if_true]
      · have hbe' : (b && truthyS (nextFrag rest)) = false := by
          cases hv : (b && truthyS (nextFrag rest))
          · rfl
          · exact absurd hv hbe
        simp only [hf', Bool.false_eq_true, if_false, hbe']

/-- Mapping to the order field commutes with range assignment. -/
theorem assignRanges_order : ∀ (b : Bool) (l : List Chapter),
    (assignRanges b l).map Chapter.order = l.map Chapter.order := by
  intro b l
  induction l generalizing b with
  | nil => rfl
  | cons c rest ih =>
    unfold assignRanges
    simp only [List.map_cons, ih false]
    by_cases hf : truthyS c.fragment = true
    · simp only [hf, if_true]
    · have hf' : truthyS c.fragment = false := by
        cases hv : truthyS c.fragment
        · rfl
        · exact absurd hv hf
      by_cases hbe : (b && truthyS (nextFrag rest)) = true
      · simp only [hf', Bool.false_eq_true, if_false, hbe, if_true]
      · have hbe' : (b && truthyS (nextFrag rest)) = false := by
          cases hv : (b && truthyS (nextFrag rest))
          · rfl
          · exact absurd hv hbe
        simp only [hf', Bool.false_eq_true, if_false, hbe']

/-- `nextFrag` only looks at the fragment fields. -/
def nextFragF : List (Option (List Char)) → Option (List Char)
  | [] => none
  | f :: rest => if truthyS f then f else nextFragF rest

theorem nextFrag_eq (l : List Chapter) :
    nextFrag l = nextFragF (l.map Chapter.fragment) := by
  induction l with
  | nil => rfl
  | cons c rest ih =>
    unfold nextFrag nextFragF
    rw [ih]
    rfl

theorem nextFrag_assignRanges (b : Bool) (l : List Chapter) :
    nextFrag (assignRanges b l) = nextFrag l := by
  rw [nextFrag_eq, nextFrag_eq, assignRanges_frag]

theorem assignRanges_idem : ∀ (b : Bool) (l : List Chapter),
    assignRanges b (assignRanges b l) = assignRanges b l := by
  intro b l
  induction l generalizing b with
  | nil => rfl
  | cons c rest ih =>
    by_cases hf : truthyS c.fragment = true
    · have h1 : assignRanges b (c :: rest) =
          { c with start_id := c.fragment, end_id := nextFrag rest } ::
            assignRanges false rest := by
        simp only [assignRanges, hf, if_true]
      rw [h1]
      have h2 : assignRanges b
          ({ c with start_id := c.fragment, end_id := nextFrag rest } ::
            assignRanges false rest) =
          { c with start_id := c.fragment, end_id := nextFrag rest } ::
            assignRanges false (assignRanges false rest) := by
        simp only [assignRanges, nextFrag_assignRanges false rest, hf, if_true]
      rw [h2, ih false]
    · have hf' : truthyS c.fragment = false := by
        cases hv : truthyS c.fragment
        · rfl
        · exact absurd hv hf
      by_cases hbe : (b && truthyS (nextFrag rest)) = true
      · have h1 : assignRanges b (c :: rest) =
            { c with end_id := nextFrag rest } :: assignRanges false rest := by
          simp only [assignRanges, hf', Bool.false_eq_true, if_false, hbe,
            if_true]
        rw [h1]
        have h2 : assignRanges b
            ({ c with end_id := nextFrag rest } :: assignRanges false rest) =
            { c with end_id := nextFrag rest } ::
              assignRanges false (assignRanges false rest) := by
          simp only [assignRanges, nextFrag_assignRanges false rest, hf',
            Bool.false_eq_true, if_false, hbe, if_true]
        rw [h2, ih false]
      · have hbe' : (b && truthyS (nextFrag rest)) = false := by
          cases hv : (b && truthyS (nextFrag rest))
          · rfl
          · exact absurd hv hbe
        have h1 : assignRanges b (c :: rest) = c :: assignRanges false rest := by
          simp only [assignRanges, hf', Bool.false_eq_true, if_false, hbe',
            if_false]
        rw [h1]
        have h2 : assignRanges b (c :: assignRanges false rest) =
            c :: assignRanges false (assignRanges false rest) := by
          simp only [assignRanges, nextFrag_assignRanges false rest, hf',
            Bool.false_eq_true, if_false, hbe', if_false]
        rw [h2, ih false]

/-- Sorting by order transfers along order-preserving maps. -/
theorem sorted_chLe_iff (l : List Chapter) :
    List.Sorted chLe l ↔ List.Pairwise (· ≤ ·) (l.map Chapter.order) := by
  rw [List.Sorted, List.pairwise_map]
  rfl

theorem resolveGroup_sorted (l : List Chapter) (h : List.Sorted chLe l) :
    resolveGroup l =
      if l.all (fun c => !truthyS c.fragment) then l
      else assignRanges true l := by
  unfold resolveGroup
  rw [h.insertionSort_eq]

/-- C8: re-running fragment-range resolution on an already-resolved group
assigns exactly the same start and end anchors — the pass is idempotent. -/
theorem c8_resolve_idempotent (g : List Chapter) :
    resolveGroup (resolveGroup g) = resolveGroup g := by
  have hs : List.Sorted chLe (List.insertionSort chLe g) :=
    List.sorted_insertionSort chLe g
  have h1 : resolveGroup g =
      if (List.insertionSort chLe g).all (fun c => !truthyS c.fragment) then
        List.insertionSort chLe g
      else assignRanges true (List.insertionSort chLe g) := rfl
  rw [h1]
  by_cases hall : (List.insertionSort chLe g).all
      (fun c => !truthyS c.fragment) = true
  · rw [if_pos hall, resolveGroup_sorted _ hs, if_pos hall]
  · rw [if_neg hall]
    have hsorted' : List.Sorted chLe
        (assignRanges true (List.insertionSort chLe g)) := by
      rw [sorted_chLe_iff, assignRanges_order]
      exact (sorted_chLe_iff _).mp hs
    rw [resolveGroup_sorted _ hsorted']
    have hallmap : ∀ (l : List Chapter),
        l.all (fun c => !truthyS c.fragment) =
          (l.map Chapter.fragment).all (fun f => !truthyS f) := by
      intro l
      induction l with
      | nil => rfl
      | cons c t iht => simp [iht]
    have hall' : (assignRanges true (List.insertionSort chLe g)).all
        (fun c => !truthyS c.fragment) =
        (List.insertionSort chLe g).all (fun c => !truthyS c.fragment) := by
      rw [hallmap, hallmap, assignRanges_frag]
    rw [if_neg (by rw [hall']; exact hall)]
    exact assignRanges_idem true _

end Epub2md
